import Mathlib

/-!
Shallow embedding of the graph data derivation engine of the obsidian-3d-graph
plugin (src/view.ts: `matchesFilter`, `processVaultData`, `updateData`), together
with theorems settling the specification claims about it.

JavaScript strings become Lean `String`s, JS `Map`s become association lists with
insertion-order semantics (`jsSet` replaces in place or appends), JS `Set`s of ids
become id lists with `contains` membership, and JS numbers (only used for node
positions) become exact rationals, with `Math.random()` draws supplied by an
oracle `rand : Nat → ℚ`.
-/

namespace Graph3D

/-- JS `String.prototype.includes` on character lists: substring containment. -/
def containsSub : List Char → List Char → Bool
  | [], pat => pat.isEmpty
  | c :: t, pat => pat.isPrefixOf (c :: t) || containsSub t pat

/-- JS `a.includes(b)`: `b` occurs as a contiguous substring of `a`. -/
def includes (s pat : String) : Bool :=
  containsSub s.data pat.data

/-- JS `String.prototype.toLowerCase` (character-wise lowering). -/
def jsToLower (s : String) : String :=
  ⟨s.data.map Char.toLower⟩

/-- JS `String.prototype.trim`: strip leading and trailing whitespace. -/
def jsTrim (s : String) : String :=
  ⟨((s.data.dropWhile Char.isWhitespace).reverse.dropWhile Char.isWhitespace).reverse⟩

/-- JS `a.startsWith(b)`. -/
def jsStartsWith (s pat : String) : Bool :=
  pat.data.isPrefixOf s.data

/-- JS `String.prototype.substring(n)` from character index `n` to the end. -/
def jsDrop (s : String) (n : Nat) : String :=
  ⟨s.data.drop n⟩

/-- JS `Map.prototype.get`: first (unique) binding of the key. -/
def jsGet {α : Type} (m : List (String × α)) (k : String) : Option α :=
  match m with
  | [] => none
  | (k', v) :: rest => if k' = k then some v else jsGet rest k

/-- JS `Map.prototype.has`. -/
def jsHas {α : Type} (m : List (String × α)) (k : String) : Bool :=
  (jsGet m k).isSome

/-- JS `Map.prototype.set`: replace the binding in place if the key exists,
otherwise append it (JS `Map` iteration preserves first-insertion order). -/
def jsSet {α : Type} (m : List (String × α)) (k : String) (v : α) : List (String × α) :=
  match m with
  | [] => [(k, v)]
  | (k', v') :: rest => if k' = k then (k, v) :: rest else (k', v') :: jsSet rest k v

/-- JS `Map.prototype.values` as a list in iteration order. -/
def jsValues {α : Type} (m : List (String × α)) : List α :=
  m.map Prod.snd

/-- `NodeType` enum of src/types.ts. -/
inductive NodeType : Type
  | File
  | Tag
  | Attachment
deriving Repr, DecidableEq

/-- `GraphNode` of src/types.ts (the plain-data fields; the rendering handle and
the mutable position live outside the derivation engine). -/
structure GraphNode : Type where
  id : String
  name : String
  filename : Option String
  type : NodeType
  tags : Option (List String)
  content : Option String
deriving Repr, DecidableEq

/-- `FilterType` of the `Filter` interface in src/types.ts: `'path' | 'tag'`. -/
inductive FilterType : Type
  | path
  | tag
deriving Repr, DecidableEq

/-- `Filter` of src/types.ts. -/
structure Filter : Type where
  type : FilterType
  value : String
  inverted : Bool
deriving Repr, DecidableEq

/-- An edge as produced by `processVaultData`: a pair of node ids. -/
structure Link : Type where
  source : String
  target : String
deriving Repr, DecidableEq

/-- The slice of `Graph3DPluginSettings` read by `processVaultData`. -/
structure Settings : Type where
  showAttachments : Bool
  hideOrphans : Bool
  showTags : Bool
  searchQuery : String
  showNeighboringNodes : Bool
  filters : List Filter
deriving Repr, DecidableEq

/-- A vault file as seen through the corpus-reader interface: path, base name,
full name, extension, the raw tag occurrences of its metadata cache (leading
`#` still present; `none` when no cache/tag data), and its text content. -/
structure VaultFile : Type where
  path : String
  basename : String
  name : String
  extension : String
  cacheTags : Option (List String)
  content : String
deriving Repr, DecidableEq

/-- A corpus snapshot: the file list and the resolved-link table
(`app.metadataCache.resolvedLinks`, `none` when absent / not yet built). -/
structure Corpus : Type where
  files : List VaultFile
  resolvedLinks : Option (List (String × List String))
deriving Repr, DecidableEq

/-- `matchesFilter` (src/view.ts, lines 973-985). -/
def matchesFilter (node : GraphNode) (filter : Filter) : Bool :=
  let filterValue := jsToLower (jsTrim filter.value)
  if filterValue = "" then false
  else
    match filter.type with
    | FilterType.path => includes (jsToLower node.id) filterValue
    | FilterType.tag =>
        let tagToMatch := if jsStartsWith filterValue "#" then jsDrop filterValue 1 else filterValue
        match node.tags with
        | some tags => tags.any (fun tag => jsToLower tag == tagToMatch)
        | none => false

/-- The node built for a vault file (src/view.ts, lines 995-1006): tags come from
the metadata cache with the leading `#` stripped, content is read only for
markdown files, the type is decided by the extension check. -/
def fileNode (f : VaultFile) : GraphNode :=
  let tags := match f.cacheTags with
    | some l => l.map (fun t => jsDrop t 1)
    | none => []
  let type := if f.extension = "md" then NodeType.File else NodeType.Attachment
  let content := if f.extension = "md" then f.content else ""
  { id := f.path, name := f.basename, filename := some f.name, type := type,
    tags := some tags, content := some content }

/-- `allNodesMap` construction (src/view.ts, lines 993-1006). -/
def buildNodesMap (files : List VaultFile) : List (String × GraphNode) :=
  files.foldl (fun m f => jsSet m f.path (fileNode f)) []

/-- `allLinks` construction from the resolved-link table
(src/view.ts, lines 1009-1014). -/
def buildLinks (table : List (String × List String)) : List Link :=
  table.foldl (fun acc p => acc ++ p.2.map (fun t => Link.mk p.1 t)) []

/-- The Tag node synthesized for a tag name (src/view.ts, line 1023): no
filename, no tags attribute, no content. -/
def mkTagNode (tagName : String) : GraphNode :=
  { id := "tag:" ++ tagName, name := "#" ++ tagName, filename := none,
    type := NodeType.Tag, tags := none, content := none }

/-- The link pushed for one tag occurrence (src/view.ts, line 1025). -/
def tagLink (node : GraphNode) (tagName : String) : Link :=
  Link.mk node.id ("tag:" ++ tagName)

/-- One tag occurrence of one document (src/view.ts, lines 1020-1026): register
the tag name in `allTags` when unseen (first occurrence wins) and
unconditionally push one document-to-tag link. -/
def tagVisit (node : GraphNode) (acc : List (String × GraphNode) × List Link)
    (tagName : String) : List (String × GraphNode) × List Link :=
  ((if jsHas acc.1 tagName then acc.1 else jsSet acc.1 tagName (mkTagNode tagName)),
   acc.2 ++ [tagLink node tagName])

/-- One node of the `allNodesMap.forEach` walk (src/view.ts, lines 1018-1028):
only File nodes with a tags list contribute, one visit per tag occurrence. -/
def tagDoc (acc : List (String × GraphNode) × List Link) (node : GraphNode) :
    List (String × GraphNode) × List Link :=
  if node.type = NodeType.File then
    match node.tags with
    | some ts => ts.foldl (tagVisit node) acc
    | none => acc
  else acc

/-- The `allTags` accumulation loop of the tag materialization stage
(src/view.ts, lines 1017-1028) over all node values. -/
def tagFold (nodes : List GraphNode) (links : List Link) :
    List (String × GraphNode) × List Link :=
  nodes.foldl tagDoc ([], links)

/-- One `allNodesMap.set(tagNode.id, tagNode)` step (src/view.ts, line 1029). -/
def tagInsert (mm : List (String × GraphNode)) (p : String × GraphNode) :
    List (String × GraphNode) :=
  jsSet mm p.2.id p.2

/-- The tag materialization stage (src/view.ts, lines 1016-1030): collect
`allTags` and the tag links, then set every tag node into `allNodesMap` keyed by
its id. -/
def tagStage (m : List (String × GraphNode)) (links : List Link) :
    List (String × GraphNode) × List Link :=
  let r := tagFold (jsValues m) links
  (r.1.foldl tagInsert m, r.2)

/-- `positiveFilters` (src/view.ts, line 1035). -/
def positiveFilters (filters : List Filter) : List Filter :=
  filters.filter (fun f => !f.inverted && jsTrim f.value ≠ "")

/-- `negativeFilters` (src/view.ts, line 1036). -/
def negativeFilters (filters : List Filter) : List Filter :=
  filters.filter (fun f => f.inverted && jsTrim f.value ≠ "")

/-- One `nodesToKeep.add(node)` step of the positive pass (src/view.ts, lines
1041-1045): insert the node when it matches the filter and no node with its id
is already kept (JS `Set` identity dedup is id-based dedup here, the node
values having pairwise distinct ids at the call site). -/
def posInsert (f : Filter) (keep : List GraphNode) (n : GraphNode) : List GraphNode :=
  if matchesFilter n f && !keep.any (fun m => m.id == n.id) then keep ++ [n] else keep

/-- One positive filter's sweep over all nodes (src/view.ts, lines 1040-1046). -/
def posStep (nodes : List GraphNode) (keep : List GraphNode) (f : Filter) :
    List GraphNode :=
  nodes.foldl (posInsert f) keep

/-- The positive pass of the advanced filtering stage (src/view.ts, lines
1038-1048): the `nodesToKeep` set is filled filter-major and read back in
insertion order. -/
def positivePass (pos : List Filter) (nodes : List GraphNode) : List GraphNode :=
  pos.foldl (posStep nodes) []

/-- The advanced filtering stage (src/view.ts, lines 1034-1054). -/
def advancedFilterStage (filters : List Filter) (nodes : List GraphNode) :
    List GraphNode :=
  let pos := positiveFilters filters
  let neg := negativeFilters filters
  let kept := if pos.length > 0 then positivePass pos nodes else nodes
  if neg.length > 0 then
    kept.filter (fun n => !neg.any (fun f => matchesFilter n f))
  else kept

/-- The search match predicate (src/view.ts, lines 1059-1064). -/
def searchMatches (searchQuery : String) (node : GraphNode) : Bool :=
  let lowerCaseFilter := jsToLower searchQuery
  let nodeContent := node.content.getD ""
  includes (jsToLower node.name) lowerCaseFilter ||
    (node.type ≠ NodeType.Tag && includes (jsToLower node.id) lowerCaseFilter) ||
    includes (jsToLower nodeContent) lowerCaseFilter

/-- The search filtering stage of the current derivation
(src/view.ts, lines 1057-1065). -/
def searchStage (searchQuery : String) (nodes : List GraphNode) : List GraphNode :=
  nodes.filter (searchMatches searchQuery)

/-- The node/link map after the optional tag materialization
(src/view.ts, lines 993-1030). -/
def derivedBase (s : Settings) (files : List VaultFile)
    (table : List (String × List String)) : List (String × GraphNode) × List Link :=
  let m := buildNodesMap files
  let ls := buildLinks table
  if s.showTags then tagStage m ls else (m, ls)

/-- `finalNodes` after advanced filtering and search
(src/view.ts, lines 1032-1065); JS string truthiness makes the search stage run
exactly when the query is non-empty. -/
def filteredNodes (s : Settings) (files : List VaultFile)
    (table : List (String × List String)) : List GraphNode :=
  let fn := advancedFilterStage s.filters (jsValues (derivedBase s files table).1)
  if s.searchQuery = "" then fn else searchStage s.searchQuery fn

/-- Edge re-projection onto a node set (src/view.ts, lines 1067-1068 and
1076-1077 and 1087-1088): keep the links whose two endpoint ids occur among the
node ids. -/
def reproject (nodes : List GraphNode) (links : List Link) : List Link :=
  let ids := nodes.map GraphNode.id
  links.filter (fun l => ids.contains l.source && ids.contains l.target)

/-- `finalLinks` (src/view.ts, lines 1067-1068). -/
def finalLinksOf (s : Settings) (files : List VaultFile)
    (table : List (String × List String)) : List Link :=
  reproject (filteredNodes s files table) (derivedBase s files table).2

/-- The visibility predicate (src/view.ts, lines 1070-1074). -/
def visibleNode (s : Settings) (n : GraphNode) : Bool :=
  match n.type with
  | NodeType.Tag => s.showTags
  | NodeType.Attachment => s.showAttachments
  | NodeType.File => true

/-- `nodesToShow` after visibility filtering (src/view.ts, lines 1070-1074). -/
def nodesToShowOf (s : Settings) (files : List VaultFile)
    (table : List (String × List String)) : List GraphNode :=
  (filteredNodes s files table).filter (visibleNode s)

/-- `linksToShow` after visibility filtering (src/view.ts, lines 1076-1077). -/
def linksToShowOf (s : Settings) (files : List VaultFile)
    (table : List (String × List String)) : List Link :=
  reproject (nodesToShowOf s files table) (finalLinksOf s files table)

/-- `linkedNodeIds` (src/view.ts, lines 1080-1084): every id incident to a
currently visible link. -/
def linkedNodeIds (links : List Link) : List String :=
  links.foldl (fun acc l => acc ++ [l.source, l.target]) []

/-- The orphan-pruning stage (src/view.ts, lines 1079-1089): drop the nodes with
no incident visible link, then re-project the links once more. -/
def orphanStage (nodes : List GraphNode) (links : List Link) :
    List GraphNode × List Link :=
  let kept := nodes.filter (fun n => (linkedNodeIds links).contains n.id)
  (kept, reproject kept links)

/-- `processVaultData` (src/view.ts, lines 987-1092): the full derivation. -/
def processVaultData (s : Settings) (c : Corpus) :
    Option (List GraphNode × List Link) :=
  match c.resolvedLinks with
  | none => none
  | some table =>
      if s.hideOrphans then
        some (orphanStage (nodesToShowOf s c.files table) (linksToShowOf s c.files table))
      else
        some (nodesToShowOf s c.files table, linksToShowOf s c.files table)

/-- What the view displays after one `updateData` cycle, at the data level. -/
structure DisplayState : Type where
  nodes : List GraphNode
  links : List Link
  message : Option String
deriving Repr, DecidableEq

/-- The display outcome of `updateData` (src/view.ts, lines 515-602): when the
derivation yields a non-empty node set it is swapped in; otherwise (including a
`null` derivation) the graph is torn down and replaced by an empty one showing
the no-results message — independently of what was displayed before. -/
def updateDisplayed (newData : Option (List GraphNode × List Link)) : DisplayState :=
  match newData with
  | some (nodes, links) =>
      if nodes.length > 0 then ⟨nodes, links, none⟩
      else ⟨[], [], some "No search results found."⟩
  | none => ⟨[], [], some "No search results found."⟩

/-- A 3-component position; coordinates modelled as exact rationals. -/
structure Pos : Type where
  x : ℚ
  y : ℚ
  z : ℚ
deriving Repr, DecidableEq

/-- One node of the `nodePositions` harvest (src/view.ts, lines 508-512):
record the position when the id is truthy and all three coordinates are
defined. -/
def harvestStep (m : List (String × Pos)) (p : String × Option Pos) :
    List (String × Pos) :=
  match p with
  | (id, some q) => if id ≠ "" then jsSet m id q else m
  | (_, none) => m

/-- The `nodePositions` harvest of `updateData` (src/view.ts, lines 506-513)
over all previous nodes. -/
def harvestPositions (old : List (String × Option Pos)) : List (String × Pos) :=
  old.foldl harvestStep []

/-- The `adjacencyMap` of `updateData` (src/view.ts, lines 527-537): per node id,
the neighbor ids contributed by each link in both directions, in link order. -/
def buildAdjacency (links : List Link) : List (String × List String) :=
  links.foldl
    (fun m l =>
      let m1 := if jsHas m l.source then m else jsSet m l.source []
      let m2 := if jsHas m1 l.target then m1 else jsSet m1 l.target []
      let m3 := jsSet m2 l.source ((jsGet m2 l.source).getD [] ++ [l.target])
      jsSet m3 l.target ((jsGet m3 l.target).getD [] ++ [l.source]))
    []

/-- The neighbor scan of `updateData` (src/view.ts, lines 549-552): position of
the first neighbor that has a cached position. -/
def firstCachedNeighbor (cache : List (String × Pos)) : List String → Option Pos
  | [] => none
  | n :: rest =>
      match jsGet cache n with
      | some p => some p
      | none => firstCachedNeighbor cache rest

/-- One `(Math.random() - 0.5) * 2` jitter term, the draw supplied by the
oracle `rand`. -/
def jitter (rand : Nat → ℚ) (k : Nat) : ℚ :=
  (rand k - 1/2) * 2

/-- Position assignment for one new node (src/view.ts, lines 539-559): a cached
position is carried over verbatim; otherwise the node is seeded at the first
positioned neighbor plus a jitter per axis (consuming three draws); otherwise it
is left unpositioned. -/
def seedNode (cache : List (String × Pos)) (adj : List (String × List String))
    (rand : Nat → ℚ) (id : String) (k : Nat) : Option Pos × Nat :=
  match jsGet cache id with
  | some p => (some p, k)
  | none =>
      let neighbors := (jsGet adj id).getD []
      match firstCachedNeighbor cache neighbors with
      | some q =>
          (some ⟨q.x + jitter rand k, q.y + jitter rand (k + 1), q.z + jitter rand (k + 2)⟩,
           k + 3)
      | none => (none, k)

/-- The position pass over all new nodes in order (src/view.ts, lines 539-560),
threading the draw counter. -/
def assignPositions (cache : List (String × Pos)) (adj : List (String × List String))
    (rand : Nat → ℚ) : List String → Nat → List (String × Option Pos)
  | [], _ => []
  | id :: rest, k =>
      let r := seedNode cache adj rand id k
      (id, r.1) :: assignPositions cache adj rand rest r.2

/-- The position-continuity step of `updateData` (src/view.ts, lines 506-561,
`useCache` path with a non-empty previous graph): harvest the previous
positions, build the adjacency of the new link set, then assign positions to
the new nodes in order. -/
def positionContinuity (old : List (String × Option Pos)) (newNodes : List String)
    (newLinks : List Link) (rand : Nat → ℚ) : List (String × Option Pos) :=
  assignPositions (harvestPositions old) (buildAdjacency newLinks) rand newNodes 0

/-- Adjacency through the full pre-search link set as used by the earlier
derivation's neighbor expansion (src/unnamed/part_001, lines 935-945): `b` is a
neighbor of `a` when some link connects them in either direction and the
endpoint playing the role of `a` is a known node id (the adjacency map is keyed
by node ids). -/
def adjacentVia (allNodeIds : List String) (allLinks : List Link) (a b : String) : Bool :=
  allLinks.any
    (fun l =>
      (allNodeIds.contains l.source && l.source == a && l.target == b) ||
      (allNodeIds.contains l.target && l.target == a && l.source == b))

/-- The search stage of the earlier derivation, which implements neighbor
expansion (src/unnamed/part_001, lines 919-948), stated by its membership
semantics: a node survives iff it matches the search, or the neighbor toggle is
on and it is adjacent to a matching node through the pre-search link set. -/
def searchStageOld (searchQuery : String) (showNeighboringNodes : Bool)
    (allNodeIds : List String) (allLinks : List Link)
    (finalNodes : List GraphNode) : List GraphNode :=
  let matchingNodeIds := (finalNodes.filter (searchMatches searchQuery)).map GraphNode.id
  finalNodes.filter
    (fun n =>
      matchingNodeIds.contains n.id ||
      (showNeighboringNodes &&
        matchingNodeIds.any (fun mid => adjacentVia allNodeIds allLinks mid n.id)))

/-! ### Concrete corpora and configurations used by counterexamples and witnesses -/

/-- A view configuration with only a search query set and the neighbor toggle
enabled. -/
def exSearchSettings : Settings :=
  { showAttachments := false, hideOrphans := false, showTags := false,
    searchQuery := "hello", showNeighboringNodes := true, filters := [] }

/-- A markdown file whose content contains the search text. -/
def exFileA : VaultFile :=
  { path := "A.md", basename := "A", name := "A.md", extension := "md",
    cacheTags := none, content := "hello world" }

/-- A markdown file that matches nothing. -/
def exFileB : VaultFile :=
  { path := "B.md", basename := "B", name := "B.md", extension := "md",
    cacheTags := none, content := "nothing" }

/-- A two-note corpus where A links to B. -/
def exSearchCorpus : Corpus :=
  { files := [exFileA, exFileB], resolvedLinks := some [("A.md", ["B.md"])] }

/-- A view configuration with hide-orphans enabled and nothing else. -/
def exOrphanSettings : Settings :=
  { showAttachments := false, hideOrphans := true, showTags := false,
    searchQuery := "", showNeighboringNodes := true, filters := [] }

/-- A view configuration with show-tags enabled and nothing else. -/
def exTagSettings : Settings :=
  { showAttachments := false, hideOrphans := false, showTags := true,
    searchQuery := "", showNeighboringNodes := true, filters := [] }

/-- A markdown file carrying the same tag occurrence twice. -/
def exFileDupTag : VaultFile :=
  { path := "a.md", basename := "a", name := "a.md", extension := "md",
    cacheTags := some ["#x", "#x"], content := "" }

/-- A one-note corpus with a duplicated tag occurrence and no links. -/
def exTagCorpus : Corpus :=
  { files := [exFileDupTag], resolvedLinks := some [] }

/-- A rule list with one positive path rule and one negative tag rule. -/
def exWitnessFilters : List Filter :=
  [Filter.mk FilterType.path "a" false, Filter.mk FilterType.tag "x" true]

/-- A deterministic stand-in for the `Math.random()` draw stream. -/
def exRand : Nat → ℚ := fun _ => 1/2

/-- A previous graph with one positioned node. -/
def exOldNodes : List (String × Option Pos) := [("A.md", some ⟨1, 2, 3⟩)]

/-! ### Basic lemmas -/

theorem jsToLower_empty : jsToLower "" = "" := rfl

/-- No dangling edges: every link's two endpoint ids belong to the node set. -/
def noDangling (nodes : List GraphNode) (links : List Link) : Prop :=
  ∀ l ∈ links, (∃ n ∈ nodes, n.id = l.source) ∧ (∃ n ∈ nodes, n.id = l.target)

theorem reproject_noDangling (nodes : List GraphNode) (links : List Link) :
    noDangling nodes (reproject nodes links) := by
  intro l hl
  simp only [reproject, List.mem_filter, Bool.and_eq_true] at hl
  obtain ⟨-, hs, ht⟩ := hl
  constructor
  · obtain ⟨n, hn, hid⟩ := List.mem_map.mp (List.elem_iff.mp hs)
    exact ⟨n, hn, hid⟩
  · obtain ⟨n, hn, hid⟩ := List.mem_map.mp (List.elem_iff.mp ht)
    exact ⟨n, hn, hid⟩

/-- Membership in the re-projected link list. -/
theorem mem_reproject_iff (nodes : List GraphNode) (links : List Link) (l : Link) :
    l ∈ reproject nodes links ↔
      l ∈ links ∧ l.source ∈ nodes.map GraphNode.id ∧ l.target ∈ nodes.map GraphNode.id := by
  simp [reproject, List.mem_filter]

/-- Evaluation of the derivation when the resolved-link table is present. -/
theorem processVaultData_some (s : Settings) (files : List VaultFile)
    (table : List (String × List String)) :
    processVaultData s (Corpus.mk files (some table)) =
      if s.hideOrphans then
        some (orphanStage (nodesToShowOf s files table) (linksToShowOf s files table))
      else some (nodesToShowOf s files table, linksToShowOf s files table) := rfl

/-- The second component of the orphan stage is the re-projection onto its
first component. -/
theorem orphanStage_snd (nodes : List GraphNode) (links : List Link) :
    (orphanStage nodes links).2 = reproject (orphanStage nodes links).1 links := rfl

theorem tagStage_fst (m : List (String × GraphNode)) (links : List Link) :
    (tagStage m links).1 = (tagFold (jsValues m) links).1.foldl tagInsert m := rfl

theorem tagStage_snd (m : List (String × GraphNode)) (links : List Link) :
    (tagStage m links).2 = (tagFold (jsValues m) links).2 := rfl

theorem mem_linkedNodeIds_aux (links : List Link) (acc : List String) (x : String) :
    x ∈ links.foldl (fun acc l => acc ++ [l.source, l.target]) acc ↔
      x ∈ acc ∨ ∃ l ∈ links, l.source = x ∨ l.target = x := by
  induction links generalizing acc with
  | nil => simp
  | cons l rest ih =>
      rw [List.foldl_cons, ih]
      constructor
      · rintro (h | ⟨l', hl', hx⟩)
        · rcases List.mem_append.mp h with h | h
          · exact Or.inl h
          · rcases List.mem_cons.mp h with h | h
            · exact Or.inr ⟨l, List.mem_cons_self l rest, Or.inl h.symm⟩
            · rcases List.mem_cons.mp h with h | h
              · exact Or.inr ⟨l, List.mem_cons_self l rest, Or.inr h.symm⟩
              · cases h
        · exact Or.inr ⟨l', List.mem_cons_of_mem l hl', hx⟩
      · rintro (h | ⟨l', hl', hx⟩)
        · exact Or.inl (List.mem_append.mpr (Or.inl h))
        · rcases List.mem_cons.mp hl' with rfl | hl'
          · refine Or.inl (List.mem_append.mpr (Or.inr ?_))
            rcases hx with hx | hx
            · exact List.mem_cons.mpr (Or.inl hx.symm)
            · exact List.mem_cons.mpr (Or.inr (List.mem_cons.mpr (Or.inl hx.symm)))
          · exact Or.inr ⟨l', hl', hx⟩

/-- An id occurs in `linkedNodeIds links` exactly when some link is incident
to it. -/
theorem linkedNodeIds_mem (links : List Link) (x : String) :
    x ∈ linkedNodeIds links ↔ ∃ l ∈ links, l.source = x ∨ l.target = x := by
  simpa using mem_linkedNodeIds_aux links [] x

/-! ### The positive filter pass -/

theorem posStep_cons (f : Filter) (n : GraphNode) (rest : List GraphNode)
    (keep : List GraphNode) :
    posStep (n :: rest) keep f = posStep rest (posInsert f keep n) f := rfl

theorem posInsert_subset (f : Filter) (keep : List GraphNode) (n x : GraphNode)
    (h : x ∈ keep) : x ∈ posInsert f keep n := by
  unfold posInsert
  split
  · exact List.mem_append.mpr (Or.inl h)
  · exact h

theorem mem_posInsert (f : Filter) (keep : List GraphNode) (n x : GraphNode)
    (h : x ∈ posInsert f keep n) :
    x ∈ keep ∨ (x = n ∧ matchesFilter n f = true) := by
  by_cases hc : (matchesFilter n f && !keep.any (fun m => m.id == n.id)) = true
  · unfold posInsert at h
    rw [if_pos hc] at h
    rcases List.mem_append.mp h with h | h
    · exact Or.inl h
    · exact Or.inr ⟨List.mem_singleton.mp h, ((Bool.and_eq_true _ _).mp hc).1⟩
  · unfold posInsert at h
    rw [if_neg hc] at h
    exact Or.inl h

theorem posStep_subset (nodes : List GraphNode) (f : Filter) (x : GraphNode) :
    ∀ keep, x ∈ keep → x ∈ posStep nodes keep f := by
  induction nodes with
  | nil => exact fun keep h => h
  | cons n rest ih =>
      intro keep h
      rw [posStep_cons]
      exact ih _ (posInsert_subset f keep n x h)

theorem mem_posStep (nodes : List GraphNode) (f : Filter) (x : GraphNode) :
    ∀ keep, x ∈ posStep nodes keep f →
      x ∈ keep ∨ (x ∈ nodes ∧ matchesFilter x f = true) := by
  induction nodes with
  | nil => exact fun keep h => Or.inl h
  | cons n rest ih =>
      intro keep h
      rw [posStep_cons] at h
      rcases ih (posInsert f keep n) h with h | ⟨hx, hm⟩
      · rcases mem_posInsert f keep n x h with h | ⟨rfl, hm⟩
        · exact Or.inl h
        · exact Or.inr ⟨List.mem_cons_self x rest, hm⟩
      · exact Or.inr ⟨List.mem_cons_of_mem n hx, hm⟩

theorem posStep_id_complete (nodes : List GraphNode) (f : Filter) (x : GraphNode)
    (hm : matchesFilter x f = true) :
    ∀ keep, x ∈ nodes → ∃ m ∈ posStep nodes keep f, m.id = x.id := by
  induction nodes with
  | nil => exact fun keep hx => absurd hx (List.not_mem_nil x)
  | cons n rest ih =>
      intro keep hx
      rcases List.mem_cons.mp hx with rfl | hx
      · have hstep : ∃ m ∈ posInsert f keep x, m.id = x.id := by
          by_cases hc : (matchesFilter x f && !keep.any (fun m => m.id == x.id)) = true
          · refine ⟨x, ?_, rfl⟩
            unfold posInsert
            rw [if_pos hc]
            exact List.mem_append.mpr (Or.inr (List.mem_singleton.mpr rfl))
          · have hb : keep.any (fun m => m.id == x.id) = true := by
              cases hany : keep.any (fun m => m.id == x.id) with
              | true => rfl
              | false => exact absurd (by rw [hm, hany]; rfl) hc
            obtain ⟨m, hmk, hid⟩ := List.any_eq_true.mp hb
            exact ⟨m, posInsert_subset f keep x m hmk, beq_iff_eq.mp hid⟩
        obtain ⟨m, hmk, hid⟩ := hstep
        rw [posStep_cons]
        exact ⟨m, posStep_subset rest f m _ hmk, hid⟩
      · rw [posStep_cons]
        exact ih _ hx

theorem positivePass_fold_subset (pos : List Filter) (nodes : List GraphNode)
    (x : GraphNode) :
    ∀ keep, x ∈ keep → x ∈ pos.foldl (posStep nodes) keep := by
  induction pos with
  | nil => exact fun keep h => h
  | cons f rest ih =>
      intro keep h
      exact ih _ (posStep_subset nodes f x keep h)

theorem positivePass_fold_sound (pos : List Filter) (nodes : List GraphNode)
    (x : GraphNode) :
    ∀ keep, x ∈ pos.foldl (posStep nodes) keep →
      x ∈ keep ∨ (x ∈ nodes ∧ ∃ f ∈ pos, matchesFilter x f = true) := by
  induction pos with
  | nil => exact fun keep h => Or.inl h
  | cons f rest ih =>
      intro keep h
      rcases ih (posStep nodes keep f) h with h | ⟨hx, f', hf', hm⟩
      · rcases mem_posStep nodes f x keep h with h | ⟨hx, hm⟩
        · exact Or.inl h
        · exact Or.inr ⟨hx, f, List.mem_cons_self f rest, hm⟩
      · exact Or.inr ⟨hx, f', List.mem_cons_of_mem f hf', hm⟩

theorem positivePass_fold_complete (pos : List Filter) (nodes : List GraphNode)
    (x : GraphNode) (f : Filter) (hf : f ∈ pos) (hx : x ∈ nodes)
    (hm : matchesFilter x f = true) :
    ∀ keep, ∃ m ∈ pos.foldl (posStep nodes) keep, m.id = x.id := by
  induction pos with
  | nil => exact absurd hf (List.not_mem_nil f)
  | cons g rest ih =>
      intro keep
      rcases List.mem_cons.mp hf with rfl | hf
      · obtain ⟨m, hmk, hid⟩ := posStep_id_complete nodes f x hm keep hx
        exact ⟨m, positivePass_fold_subset rest nodes m _ hmk, hid⟩
      · exact ih hf _

/-- Membership in the positive pass, assuming pairwise distinct node ids (the
call-site invariant: the stage input is the value list of an id-keyed map). -/
theorem mem_positivePass_iff (pos : List Filter) (nodes : List GraphNode)
    (hnd : (nodes.map GraphNode.id).Nodup) (x : GraphNode) :
    x ∈ positivePass pos nodes ↔
      x ∈ nodes ∧ ∃ f ∈ pos, matchesFilter x f = true := by
  constructor
  · intro h
    rcases positivePass_fold_sound pos nodes x [] h with h | h
    · cases h
    · exact h
  · rintro ⟨hx, f, hf, hm⟩
    obtain ⟨m, hmp, hid⟩ := positivePass_fold_complete pos nodes x f hf hx hm []
    have hmn : m ∈ nodes := by
      rcases positivePass_fold_sound pos nodes m [] hmp with h | h
      · cases h
      · exact h.1
    have hmx : m = x := List.inj_on_of_nodup_map hnd hmn hx hid
    rwa [hmx] at hmp

/-! ### Map and string lemmas -/

theorem jsGet_jsSet_self {α : Type} (m : List (String × α)) (k : String) (v : α) :
    jsGet (jsSet m k v) k = some v := by
  induction m with
  | nil => simp [jsSet, jsGet]
  | cons p rest ih =>
      obtain ⟨k', v'⟩ := p
      by_cases hk : k' = k
      · simp [jsSet, hk, jsGet]
      · simp [jsSet, hk, jsGet, ih]

theorem jsGet_jsSet_ne {α : Type} (m : List (String × α)) (k k' : String) (v : α)
    (h : k' ≠ k) : jsGet (jsSet m k v) k' = jsGet m k' := by
  have hk : ¬ k = k' := fun hc => h hc.symm
  induction m with
  | nil => simp [jsSet, jsGet, hk]
  | cons p rest ih =>
      obtain ⟨k0, v0⟩ := p
      by_cases h0 : k0 = k
      · subst h0
        simp [jsSet, jsGet, hk]
      · simp only [jsSet, if_neg h0, jsGet]
        by_cases h1 : k0 = k'
        · simp [h1]
        · simp [h1, ih]

theorem mem_jsSet {α : Type} (m : List (String × α)) (k : String) (v : α)
    (p : String × α) (h : p ∈ jsSet m k v) : p ∈ m ∨ p = (k, v) := by
  induction m with
  | nil =>
      simp [jsSet] at h
      exact Or.inr h
  | cons q rest ih =>
      obtain ⟨k', v'⟩ := q
      by_cases hk : k' = k
      · simp only [jsSet, if_pos hk, List.mem_cons] at h
        rcases h with h | h
        · exact Or.inr h
        · exact Or.inl (List.mem_cons_of_mem _ h)
      · simp only [jsSet, if_neg hk, List.mem_cons] at h
        rcases h with h | h
        · exact Or.inl (List.mem_cons.mpr (Or.inl h))
        · rcases ih h with h | h
          · exact Or.inl (List.mem_cons_of_mem _ h)
          · exact Or.inr h

theorem jsHas_of_mem {α : Type} (m : List (String × α)) (k : String) (v : α)
    (h : (k, v) ∈ m) : jsHas m k = true := by
  induction m with
  | nil => cases h
  | cons q rest ih =>
      obtain ⟨k', v'⟩ := q
      by_cases hk : k' = k
      · simp [jsHas, jsGet, hk]
      · rcases List.mem_cons.mp h with h | h
        · exact absurd (congrArg Prod.fst h).symm hk
        · simpa [jsHas, jsGet, hk] using ih h

theorem jsGet_mem {α : Type} (m : List (String × α)) (k : String) (v : α)
    (h : jsGet m k = some v) : (k, v) ∈ m := by
  induction m with
  | nil => cases h
  | cons q rest ih =>
      obtain ⟨k', v'⟩ := q
      by_cases hk : k' = k
      · rw [jsGet, if_pos hk] at h
        cases h
        exact List.mem_cons.mpr (Or.inl (by rw [hk]))
      · rw [jsGet, if_neg hk] at h
        exact List.mem_cons_of_mem _ (ih h)

theorem keys_jsSet_subset {α : Type} (m : List (String × α)) (k : String) (v : α)
    (x : String) (h : x ∈ (jsSet m k v).map Prod.fst) :
    x ∈ m.map Prod.fst ∨ x = k := by
  obtain ⟨p, hp, hx⟩ := List.mem_map.mp h
  rcases mem_jsSet m k v p hp with hp | hp
  · exact Or.inl (List.mem_map.mpr ⟨p, hp, hx⟩)
  · subst hp
    exact Or.inr hx.symm

theorem jsSet_keys_nodup {α : Type} (m : List (String × α)) (k : String) (v : α)
    (h : (m.map Prod.fst).Nodup) : ((jsSet m k v).map Prod.fst).Nodup := by
  induction m with
  | nil => simp [jsSet]
  | cons q rest ih =>
      obtain ⟨k', v'⟩ := q
      simp only [List.map_cons, List.nodup_cons] at h
      by_cases hk : k' = k
      · simp only [jsSet, if_pos hk, List.map_cons, List.nodup_cons]
        exact ⟨by rw [← hk]; exact h.1, h.2⟩
      · simp only [jsSet, if_neg hk, List.map_cons, List.nodup_cons]
        refine ⟨?_, ih h.2⟩
        intro hc
        rcases keys_jsSet_subset rest k v k' hc with hc | hc
        · exact h.1 hc
        · exact hk hc

theorem string_append_cancel_left (s a b : String) (h : s ++ a = s ++ b) : a = b := by
  have hd : s.data ++ a.data = s.data ++ b.data := congrArg String.data h
  have := List.append_cancel_left hd
  cases a
  cases b
  simp only at this
  rw [this]

theorem mkTagNode_inj (a b : String) (h : mkTagNode a = mkTagNode b) : a = b :=
  string_append_cancel_left "tag:" a b (congrArg GraphNode.id h)

theorem tagLink_inj_tag (d : GraphNode) (a b : String) (h : tagLink d a = tagLink d b) :
    a = b :=
  string_append_cancel_left "tag:" a b (congrArg Link.target h)

/-! ### The allTags accumulator -/

theorem tagVisit_fst (node : GraphNode) (acc : List (String × GraphNode) × List Link)
    (tn : String) :
    (tagVisit node acc tn).1 =
      if jsHas acc.1 tn then acc.1 else jsSet acc.1 tn (mkTagNode tn) := rfl

theorem tagVisit_snd (node : GraphNode) (acc : List (String × GraphNode) × List Link)
    (tn : String) :
    (tagVisit node acc tn).2 = acc.2 ++ [tagLink node tn] := rfl

theorem jsHas_tagVisit (node : GraphNode) (acc : List (String × GraphNode) × List Link)
    (tn t : String) :
    jsHas (tagVisit node acc tn).1 t = true ↔ jsHas acc.1 t = true ∨ t = tn := by
  rw [tagVisit_fst]
  by_cases hh : jsHas acc.1 tn = true
  · rw [if_pos hh]
    constructor
    · exact Or.inl
    · rintro (h | rfl)
      · exact h
      · exact hh
  · rw [if_neg hh]
    by_cases ht : t = tn
    · subst ht
      simp [jsHas, jsGet_jsSet_self]
    · rw [jsHas, jsGet_jsSet_ne _ _ _ _ ht]
      simp [jsHas, ht]

theorem jsHas_tagVisit_fold (node : GraphNode) (ts : List String) :
    ∀ (acc : List (String × GraphNode) × List Link) (t : String),
      jsHas ((ts.foldl (tagVisit node) acc).1) t = true ↔
        jsHas acc.1 t = true ∨ t ∈ ts := by
  induction ts with
  | nil => simp
  | cons tn rest ih =>
      intro acc t
      rw [List.foldl_cons, ih, jsHas_tagVisit]
      simp [or_assoc]

theorem jsHas_tagDoc (acc : List (String × GraphNode) × List Link) (node : GraphNode)
    (t : String) :
    jsHas ((tagDoc acc node).1) t = true ↔
      jsHas acc.1 t = true ∨
        (node.type = NodeType.File ∧ ∃ ts, node.tags = some ts ∧ t ∈ ts) := by
  unfold tagDoc
  by_cases hf : node.type = NodeType.File
  · rw [if_pos hf]
    cases hts : node.tags with
    | none => simp [hf, hts]
    | some ts =>
        rw [jsHas_tagVisit_fold]
        simp [hf, hts]
  · rw [if_neg hf]
    simp [hf]

theorem jsHas_tagFold_fold (nodes : List GraphNode) :
    ∀ (acc : List (String × GraphNode) × List Link) (t : String),
      jsHas ((nodes.foldl tagDoc acc).1) t = true ↔
        jsHas acc.1 t = true ∨
          ∃ n ∈ nodes, n.type = NodeType.File ∧ ∃ ts, n.tags = some ts ∧ t ∈ ts := by
  induction nodes with
  | nil => simp
  | cons n rest ih =>
      intro acc t
      rw [List.foldl_cons, ih, jsHas_tagDoc]
      constructor
      · rintro ((h | h) | h)
        · exact Or.inl h
        · exact Or.inr ⟨n, List.mem_cons_self n rest, h⟩
        · obtain ⟨n', hn', hp⟩ := h
          exact Or.inr ⟨n', List.mem_cons_of_mem n hn', hp⟩
      · rintro (h | ⟨n', hn', hp⟩)
        · exact Or.inl (Or.inl h)
        · rcases List.mem_cons.mp hn' with rfl | hn'
          · exact Or.inl (Or.inr hp)
          · exact Or.inr ⟨n', hn', hp⟩

/-- A tag name has an `allTags` entry exactly when some File node carries it. -/
theorem jsHas_tagFold (nodes : List GraphNode) (links : List Link) (t : String) :
    jsHas (tagFold nodes links).1 t = true ↔
      ∃ n ∈ nodes, n.type = NodeType.File ∧ ∃ ts, n.tags = some ts ∧ t ∈ ts := by
  unfold tagFold
  rw [jsHas_tagFold_fold]
  simp [jsHas, jsGet]

theorem tagVisit_entry_shape (node : GraphNode)
    (acc : List (String × GraphNode) × List Link) (tn : String)
    (hacc : ∀ p ∈ acc.1, Prod.snd p = mkTagNode (Prod.fst p)) :
    ∀ p ∈ (tagVisit node acc tn).1, Prod.snd p = mkTagNode (Prod.fst p) := by
  rw [tagVisit_fst]
  by_cases hh : jsHas acc.1 tn = true
  · rw [if_pos hh]
    exact hacc
  · rw [if_neg hh]
    intro p hp
    rcases mem_jsSet _ _ _ p hp with hp | hp
    · exact hacc p hp
    · rw [hp]

theorem tagVisit_fold_entry_shape (node : GraphNode) (ts : List String) :
    ∀ (acc : List (String × GraphNode) × List Link),
      (∀ p ∈ acc.1, Prod.snd p = mkTagNode (Prod.fst p)) →
      ∀ p ∈ (ts.foldl (tagVisit node) acc).1, Prod.snd p = mkTagNode (Prod.fst p) := by
  induction ts with
  | nil => exact fun acc hacc => hacc
  | cons tn rest ih =>
      intro acc hacc
      rw [List.foldl_cons]
      exact ih _ (tagVisit_entry_shape node acc tn hacc)

theorem tagDoc_entry_shape (acc : List (String × GraphNode) × List Link)
    (node : GraphNode)
    (hacc : ∀ p ∈ acc.1, Prod.snd p = mkTagNode (Prod.fst p)) :
    ∀ p ∈ (tagDoc acc node).1, Prod.snd p = mkTagNode (Prod.fst p) := by
  unfold tagDoc
  by_cases hf : node.type = NodeType.File
  · rw [if_pos hf]
    cases hts : node.tags with
    | none => exact hacc
    | some ts => exact tagVisit_fold_entry_shape node ts acc hacc
  · rw [if_neg hf]
    exact hacc

/-- Every `allTags` entry binds a tag name to its synthesized tag node. -/
theorem tagFold_entry_shape (nodes : List GraphNode) (links : List Link) :
    ∀ p ∈ (tagFold nodes links).1, Prod.snd p = mkTagNode (Prod.fst p) := by
  unfold tagFold
  generalize hacc0 : (([], links) : List (String × GraphNode) × List Link) = acc0
  have h0 : ∀ p ∈ acc0.1, Prod.snd p = mkTagNode (Prod.fst p) := by
    rw [← hacc0]
    intro p hp
    cases hp
  clear hacc0
  induction nodes generalizing acc0 with
  | nil => exact h0
  | cons n rest ih =>
      rw [List.foldl_cons]
      exact ih _ (tagDoc_entry_shape acc0 n h0)

theorem tagVisit_keys_nodup (node : GraphNode)
    (acc : List (String × GraphNode) × List Link) (tn : String)
    (hacc : (acc.1.map Prod.fst).Nodup) :
    ((tagVisit node acc tn).1.map Prod.fst).Nodup := by
  rw [tagVisit_fst]
  by_cases hh : jsHas acc.1 tn = true
  · rwa [if_pos hh]
  · rw [if_neg hh]
    exact jsSet_keys_nodup _ _ _ hacc

theorem tagVisit_fold_keys_nodup (node : GraphNode) (ts : List String) :
    ∀ (acc : List (String × GraphNode) × List Link),
      (acc.1.map Prod.fst).Nodup →
      (((ts.foldl (tagVisit node) acc).1).map Prod.fst).Nodup := by
  induction ts with
  | nil => exact fun acc hacc => hacc
  | cons tn rest ih =>
      intro acc hacc
      rw [List.foldl_cons]
      exact ih _ (tagVisit_keys_nodup node acc tn hacc)

theorem tagDoc_keys_nodup (acc : List (String × GraphNode) × List Link)
    (node : GraphNode) (hacc : (acc.1.map Prod.fst).Nodup) :
    ((tagDoc acc node).1.map Prod.fst).Nodup := by
  unfold tagDoc
  by_cases hf : node.type = NodeType.File
  · rw [if_pos hf]
    cases hts : node.tags with
    | none => exact hacc
    | some ts => exact tagVisit_fold_keys_nodup node ts acc hacc
  · rw [if_neg hf]
    exact hacc

/-- `allTags` has pairwise distinct keys (tag names). -/
theorem tagFold_keys_nodup (nodes : List GraphNode) (links : List Link) :
    ((tagFold nodes links).1.map Prod.fst).Nodup := by
  unfold tagFold
  generalize hacc0 : (([], links) : List (String × GraphNode) × List Link) = acc0
  have h0 : (acc0.1.map Prod.fst).Nodup := by
    rw [← hacc0]
    exact List.nodup_nil
  clear hacc0
  induction nodes generalizing acc0 with
  | nil => exact h0
  | cons n rest ih =>
      rw [List.foldl_cons]
      exact ih _ (tagDoc_keys_nodup acc0 n h0)

/-! ### The tag links pushed per document -/

/-- The tag links one node contributes: one per tag occurrence of a File node
with a tags list, none otherwise. -/
def docTagLinks (n : GraphNode) : List Link :=
  if n.type = NodeType.File then
    match n.tags with
    | some ts => ts.map (tagLink n)
    | none => []
  else []

theorem tagVisit_fold_snd (node : GraphNode) (ts : List String) :
    ∀ (acc : List (String × GraphNode) × List Link),
      (ts.foldl (tagVisit node) acc).2 = acc.2 ++ ts.map (tagLink node) := by
  induction ts with
  | nil => simp
  | cons tn rest ih =>
      intro acc
      rw [List.foldl_cons, ih, tagVisit_snd, List.map_cons, List.append_assoc,
        List.singleton_append]

theorem tagDoc_snd (acc : List (String × GraphNode) × List Link) (node : GraphNode) :
    (tagDoc acc node).2 = acc.2 ++ docTagLinks node := by
  unfold tagDoc docTagLinks
  by_cases hf : node.type = NodeType.File
  · rw [if_pos hf, if_pos hf]
    cases hts : node.tags with
    | none => simp
    | some ts => rw [tagVisit_fold_snd]
  · rw [if_neg hf, if_neg hf]
    simp

theorem tagFold_fold_count (nodes : List GraphNode) (e : Link) :
    ∀ (acc : List (String × GraphNode) × List Link),
      ((nodes.foldl tagDoc acc).2).count e =
        acc.2.count e + (nodes.map (fun n => (docTagLinks n).count e)).sum := by
  induction nodes with
  | nil => simp
  | cons n rest ih =>
      intro acc
      rw [List.foldl_cons, ih, tagDoc_snd, List.count_append, List.map_cons,
        List.sum_cons]
      omega

theorem docTagLinks_count_ne (n d : GraphNode) (t : String) (h : n.id ≠ d.id) :
    (docTagLinks n).count (tagLink d t) = 0 := by
  apply List.count_eq_zero.mpr
  intro hc
  unfold docTagLinks at hc
  by_cases hf : n.type = NodeType.File
  · rw [if_pos hf] at hc
    cases hts : n.tags with
    | none => rw [hts] at hc; cases hc
    | some ts =>
        rw [hts] at hc
        obtain ⟨t', ht', he⟩ := List.mem_map.mp hc
        exact h (congrArg Link.source he)
  · rw [if_neg hf] at hc
    cases hc

theorem docTagLinks_count_self (d : GraphNode) (ts : List String) (t : String)
    (hf : d.type = NodeType.File) (ht : d.tags = some ts) :
    (docTagLinks d).count (tagLink d t) = ts.count t := by
  unfold docTagLinks
  rw [if_pos hf, ht]
  exact List.count_map_of_injective ts (tagLink d)
    (fun a b h => tagLink_inj_tag d a b h) t

theorem sum_docTagLinks_single (d : GraphNode) (t : String) :
    ∀ (l : List GraphNode), (l.map GraphNode.id).Nodup → d ∈ l →
      (l.map (fun n => (docTagLinks n).count (tagLink d t))).sum =
        (docTagLinks d).count (tagLink d t) := by
  intro l
  induction l with
  | nil => exact fun _ h => absurd h (List.not_mem_nil d)
  | cons n rest ih =>
      intro hnd hd
      simp only [List.map_cons, List.nodup_cons] at hnd
      rcases List.mem_cons.mp hd with rfl | hd
      · simp only [List.map_cons, List.sum_cons]
        have hzero : (rest.map (fun n => (docTagLinks n).count (tagLink d t))).sum = 0 := by
          apply List.sum_eq_zero
          intro x hx
          obtain ⟨n', hn', rfl⟩ := List.mem_map.mp hx
          apply docTagLinks_count_ne
          intro hc
          exact hnd.1 (by rw [← hc]; exact List.mem_map.mpr ⟨n', hn', rfl⟩)
        rw [hzero]
        omega
      · have hne : n.id ≠ d.id := by
          intro hc
          exact hnd.1 (by rw [hc]; exact List.mem_map.mpr ⟨d, hd, rfl⟩)
        simp only [List.map_cons, List.sum_cons]
        rw [docTagLinks_count_ne n d t hne, ih hnd.2 hd]
        omega

/-! ### Inserting the tag nodes into the node map -/

theorem jsGet_foldl_tagInsert_ne (ps : List (String × GraphNode)) :
    ∀ (m : List (String × GraphNode)) (k : String),
      (∀ q ∈ ps, (Prod.snd q).id ≠ k) →
      jsGet (ps.foldl tagInsert m) k = jsGet m k := by
  induction ps with
  | nil => exact fun m k _ => rfl
  | cons q rest ih =>
      intro m k hne
      rw [List.foldl_cons, ih _ k (fun q1 hq1 => hne q1 (List.mem_cons_of_mem q hq1))]
      exact jsGet_jsSet_ne m _ k q.2 (fun hc => hne q (List.mem_cons_self q rest) hc.symm)

theorem mem_values_foldl_tagInsert (ps : List (String × GraphNode)) :
    ∀ (m : List (String × GraphNode)) (p : String × GraphNode), p ∈ ps →
      (ps.map (fun q => (Prod.snd q).id)).Nodup →
      Prod.snd p ∈ jsValues (ps.foldl tagInsert m) := by
  induction ps with
  | nil => exact fun m p h => absurd h (List.not_mem_nil p)
  | cons q rest ih =>
      intro m p hp hnd
      simp only [List.map_cons, List.nodup_cons] at hnd
      rw [List.foldl_cons]
      rcases List.mem_cons.mp hp with rfl | hp
      · have hget : jsGet (rest.foldl tagInsert (tagInsert m p)) p.2.id = some p.2 := by
          rw [jsGet_foldl_tagInsert_ne rest _ _ ?_]
          · exact jsGet_jsSet_self m p.2.id p.2
          · intro q1 hq1 hc
            exact hnd.1 (by rw [← hc]; exact List.mem_map.mpr ⟨q1, hq1, rfl⟩)
        exact List.mem_map.mpr ⟨(p.2.id, p.2), jsGet_mem _ _ _ hget, rfl⟩
      · exact ih _ p hp hnd.2

theorem foldl_tagInsert_keys_nodup (ps : List (String × GraphNode)) :
    ∀ (m : List (String × GraphNode)), (m.map Prod.fst).Nodup →
      ((ps.foldl tagInsert m).map Prod.fst).Nodup := by
  induction ps with
  | nil => exact fun m h => h
  | cons q rest ih =>
      intro m h
      rw [List.foldl_cons]
      exact ih _ (jsSet_keys_nodup m _ _ h)

theorem foldl_tagInsert_id_key (ps : List (String × GraphNode)) :
    ∀ (m : List (String × GraphNode)),
      (∀ p ∈ m, (Prod.snd p).id = Prod.fst p) →
      ∀ p ∈ ps.foldl tagInsert m, (Prod.snd p).id = Prod.fst p := by
  induction ps with
  | nil => exact fun m h => h
  | cons q rest ih =>
      intro m h
      rw [List.foldl_cons]
      refine ih _ ?_
      intro p hp
      rcases mem_jsSet _ _ _ p hp with hp | hp
      · exact h p hp
      · rw [hp]

theorem allTags_ids_nodup (ps : List (String × GraphNode))
    (hshape : ∀ p ∈ ps, Prod.snd p = mkTagNode (Prod.fst p))
    (hkeys : (ps.map Prod.fst).Nodup) :
    (ps.map (fun q => (Prod.snd q).id)).Nodup := by
  have heq : ps.map (fun q => (Prod.snd q).id) =
      (ps.map Prod.fst).map (fun t => "tag:" ++ t) := by
    rw [List.map_map]
    apply List.map_congr_left
    intro p hp
    simp only [Function.comp]
    rw [hshape p hp]
    rfl
  rw [heq]
  exact hkeys.map (fun a b h => string_append_cancel_left "tag:" a b h)

/-! ### Values of the derived node map -/

theorem mem_jsValues_jsSet {α : Type} (m : List (String × α)) (k : String) (v x : α)
    (h : x ∈ jsValues (jsSet m k v)) : x ∈ jsValues m ∨ x = v := by
  induction m with
  | nil =>
      simp [jsSet, jsValues] at h
      exact Or.inr h
  | cons p rest ih =>
      obtain ⟨k', v'⟩ := p
      by_cases hk : k' = k
      · simp only [jsSet, if_pos hk, jsValues, List.map_cons, List.mem_cons] at h ⊢
        rcases h with h | h
        · exact Or.inr h
        · exact Or.inl (Or.inr h)
      · simp only [jsSet, if_neg hk, jsValues, List.map_cons, List.mem_cons] at h ⊢
        rcases h with h | h
        · exact Or.inl (Or.inl h)
        · rcases ih h with h | h
          · exact Or.inl (Or.inr h)
          · exact Or.inr h

theorem mem_buildNodesMap_fold (files : List VaultFile) :
    ∀ (m : List (String × GraphNode)) (x : GraphNode),
      x ∈ jsValues (files.foldl (fun m f => jsSet m f.path (fileNode f)) m) →
      x ∈ jsValues m ∨ ∃ f ∈ files, x = fileNode f := by
  induction files with
  | nil => exact fun m x h => Or.inl h
  | cons f rest ih =>
      intro m x h
      rw [List.foldl_cons] at h
      rcases ih _ x h with h | ⟨g, hg, hx⟩
      · rcases mem_jsValues_jsSet _ _ _ _ h with h | h
        · exact Or.inl h
        · exact Or.inr ⟨f, List.mem_cons_self f rest, h⟩
      · exact Or.inr ⟨g, List.mem_cons_of_mem f hg, hx⟩

/-- Every value of `buildNodesMap` is a file node. -/
theorem mem_buildNodesMap (files : List VaultFile) (x : GraphNode)
    (h : x ∈ jsValues (buildNodesMap files)) : ∃ f ∈ files, x = fileNode f := by
  rcases mem_buildNodesMap_fold files [] x h with h | h
  · cases h
  · exact h

theorem tagVisit_values (node : GraphNode) (ts : List String) :
    ∀ (acc : List (String × GraphNode) × List Link),
      (∀ x ∈ jsValues acc.1, ∃ t, x = mkTagNode t) →
      ∀ x ∈ jsValues (ts.foldl (tagVisit node) acc).1, ∃ t, x = mkTagNode t := by
  induction ts with
  | nil => exact fun acc hacc => hacc
  | cons tn rest ih =>
      intro acc hacc
      rw [List.foldl_cons]
      refine ih _ ?_
      intro x hx
      unfold tagVisit at hx
      by_cases hh : jsHas acc.1 tn
      · rw [if_pos hh] at hx
        exact hacc x hx
      · rw [if_neg hh] at hx
        rcases mem_jsValues_jsSet _ _ _ _ hx with h | h
        · exact hacc x h
        · exact ⟨tn, h⟩

theorem tagDoc_values (acc : List (String × GraphNode) × List Link) (node : GraphNode)
    (hacc : ∀ x ∈ jsValues acc.1, ∃ t, x = mkTagNode t) :
    ∀ x ∈ jsValues (tagDoc acc node).1, ∃ t, x = mkTagNode t := by
  unfold tagDoc
  by_cases hf : node.type = NodeType.File
  · rw [if_pos hf]
    cases hts : node.tags with
    | none => exact hacc
    | some ts => exact tagVisit_values node ts acc hacc
  · rw [if_neg hf]
    exact hacc

/-- Every value accumulated in `allTags` is a synthesized tag node. -/
theorem tagFold_values (nodes : List GraphNode) (links : List Link) :
    ∀ x ∈ jsValues (tagFold nodes links).1, ∃ t, x = mkTagNode t := by
  unfold tagFold
  generalize hacc0 : (([], links) : List (String × GraphNode) × List Link) = acc0
  have h0 : ∀ x ∈ jsValues acc0.1, ∃ t, x = mkTagNode t := by
    rw [← hacc0]
    intro x hx
    cases hx
  clear hacc0
  induction nodes generalizing acc0 with
  | nil => exact h0
  | cons n rest ih =>
      rw [List.foldl_cons]
      exact ih _ (tagDoc_values acc0 n h0)

theorem mem_foldl_tagInsert (ps : List (String × GraphNode)) :
    ∀ (m : List (String × GraphNode)) (x : GraphNode),
      x ∈ jsValues (ps.foldl tagInsert m) →
      x ∈ jsValues m ∨ ∃ p ∈ ps, x = p.2 := by
  induction ps with
  | nil => exact fun m x h => Or.inl h
  | cons p rest ih =>
      intro m x h
      rw [List.foldl_cons] at h
      rcases ih _ x h with h | ⟨q, hq, hx⟩
      · rcases mem_jsValues_jsSet _ _ _ _ h with h | h
        · exact Or.inl h
        · exact Or.inr ⟨p, List.mem_cons_self p rest, h⟩
      · exact Or.inr ⟨q, List.mem_cons_of_mem p hq, hx⟩

/-- Every node value present after the base construction and optional tag
materialization is either a file node of the corpus or a synthesized tag
node. -/
theorem derivedBase_values (s : Settings) (files : List VaultFile)
    (table : List (String × List String)) (x : GraphNode)
    (h : x ∈ jsValues (derivedBase s files table).1) :
    (∃ f ∈ files, x = fileNode f) ∨ ∃ t, x = mkTagNode t := by
  unfold derivedBase at h
  by_cases hst : s.showTags
  · rw [if_pos hst] at h
    unfold tagStage at h
    rcases mem_foldl_tagInsert _ _ _ h with h | ⟨p, hp, hx⟩
    · exact Or.inl (mem_buildNodesMap files x h)
    · refine Or.inr ?_
      have := tagFold_values (jsValues (buildNodesMap files)) (buildLinks table) p.2
        (List.mem_map.mpr ⟨p, hp, rfl⟩)
      rwa [← hx] at this
  · rw [if_neg hst] at h
    exact Or.inl (mem_buildNodesMap files x h)

/-- The advanced filtering stage only narrows the node list. -/
theorem advancedFilterStage_subset (filters : List Filter) (nodes : List GraphNode)
    (x : GraphNode) (h : x ∈ advancedFilterStage filters nodes) : x ∈ nodes := by
  have hkept : ∀ y : GraphNode,
      y ∈ (if (positiveFilters filters).length > 0
            then positivePass (positiveFilters filters) nodes else nodes) → y ∈ nodes := by
    intro y hy
    by_cases hp : (positiveFilters filters).length > 0
    · rw [if_pos hp] at hy
      rcases positivePass_fold_sound (positiveFilters filters) nodes y [] hy with h0 | h0
      · cases h0
      · exact h0.1
    · rwa [if_neg hp] at hy
  simp only [advancedFilterStage] at h
  by_cases hn : (negativeFilters filters).length > 0
  · rw [if_pos hn] at h
    exact hkept x (List.mem_of_mem_filter h)
  · rw [if_neg hn] at h
    exact hkept x h

/-- A tag rule never matches a node without a tags attribute. -/
theorem matchesFilter_tag_of_none (n : GraphNode) (f : Filter) (ht : n.tags = none)
    (hf : f.type = FilterType.tag) : matchesFilter n f = false := by
  simp only [matchesFilter, hf, ht]
  split <;> rfl

theorem fileNode_type_ne_tag (f : VaultFile) : (fileNode f).type ≠ NodeType.Tag := by
  unfold fileNode
  by_cases h : f.extension = "md" <;> simp [h]

/-! ### Position continuity -/

theorem mem_assignPositions (cache : List (String × Pos))
    (adj : List (String × List String)) (rand : Nat → ℚ) :
    ∀ (nodes : List String) (k : Nat) (id : String) (p? : Option Pos),
      (id, p?) ∈ assignPositions cache adj rand nodes k →
      ∃ k', p? = (seedNode cache adj rand id k').1 := by
  intro nodes
  induction nodes with
  | nil => intro k id p? h; cases h
  | cons nid rest ih =>
      intro k id p? h
      rw [assignPositions] at h
      rcases List.mem_cons.mp h with h | h
      · have h1 := congrArg Prod.fst h
        have h2 := congrArg Prod.snd h
        simp only at h1 h2
        subst h1
        exact ⟨k, h2⟩
      · exact ih _ id p? h

theorem seedNode_cached (cache : List (String × Pos)) (adj : List (String × List String))
    (rand : Nat → ℚ) (id : String) (k : Nat) (q : Pos)
    (h : jsGet cache id = some q) : (seedNode cache adj rand id k).1 = some q := by
  simp [seedNode, h]

theorem seedNode_no_neighbor (cache : List (String × Pos))
    (adj : List (String × List String)) (rand : Nat → ℚ) (id : String) (k : Nat)
    (h1 : jsGet cache id = none)
    (h2 : firstCachedNeighbor cache ((jsGet adj id).getD []) = none) :
    (seedNode cache adj rand id k).1 = none := by
  simp [seedNode, h1, h2]

theorem seedNode_seeded (cache : List (String × Pos))
    (adj : List (String × List String)) (rand : Nat → ℚ) (id : String) (k : Nat)
    (q : Pos) (h1 : jsGet cache id = none)
    (h2 : firstCachedNeighbor cache ((jsGet adj id).getD []) = some q) :
    (seedNode cache adj rand id k).1 =
      some ⟨q.x + jitter rand k, q.y + jitter rand (k + 1), q.z + jitter rand (k + 2)⟩ := by
  simp [seedNode, h1, h2]

theorem jitter_abs_le (rand : Nat → ℚ) (k : Nat) (h0 : 0 ≤ rand k)
    (h1 : rand k < 1) : |jitter rand k| ≤ 1 := by
  unfold jitter
  rw [abs_le]
  constructor <;> linarith

theorem harvestStep_get_ne (m : List (String × Pos)) (p : String × Option Pos)
    (k : String) (h : Prod.fst p ≠ k) : jsGet (harvestStep m p) k = jsGet m k := by
  obtain ⟨pid, pq⟩ := p
  cases pq with
  | none => rfl
  | some q =>
      simp only at h
      simp only [harvestStep]
      by_cases hd : pid ≠ ""
      · rw [if_pos hd]
        exact jsGet_jsSet_ne m pid k q (fun hc => h hc.symm)
      · rw [if_neg hd]

theorem harvest_fold_get_ne (old : List (String × Option Pos)) :
    ∀ (m : List (String × Pos)) (k : String),
      (∀ q ∈ old, Prod.fst q ≠ k) →
      jsGet (old.foldl harvestStep m) k = jsGet m k := by
  induction old with
  | nil => exact fun m k _ => rfl
  | cons p rest ih =>
      intro m k hne
      rw [List.foldl_cons,
        ih _ k (fun q hq => hne q (List.mem_cons_of_mem p hq))]
      exact harvestStep_get_ne m p k (hne p (List.mem_cons_self p rest))

theorem harvest_fold_get (old : List (String × Option Pos)) :
    ∀ (m : List (String × Pos)) (id : String) (q : Pos),
      (id, some q) ∈ old → (old.map Prod.fst).Nodup → id ≠ "" →
      jsGet (old.foldl harvestStep m) id = some q := by
  induction old with
  | nil => intro m id q h; cases h
  | cons p rest ih =>
      intro m id q hmem hnd hne
      simp only [List.map_cons, List.nodup_cons] at hnd
      rw [List.foldl_cons]
      rcases List.mem_cons.mp hmem with rfl | hmem
      · rw [harvest_fold_get_ne rest _ id ?hrest]
        · show jsGet (harvestStep m (id, some q)) id = some q
          simp only [harvestStep]
          rw [if_pos hne]
          exact jsGet_jsSet_self m id q
        case hrest =>
          intro r hr hc
          exact hnd.1 (by rw [← hc]; exact List.mem_map.mpr ⟨r, hr, rfl⟩)
      · exact ih _ id q hmem hnd.2 hne

/-- The recorded position of a previous node is found in the harvest (ids of
the previous nodes being pairwise distinct and the id non-empty). -/
theorem harvestPositions_get (old : List (String × Option Pos)) (id : String) (q : Pos)
    (hmem : (id, some q) ∈ old) (hnd : (old.map Prod.fst).Nodup) (hne : id ≠ "") :
    jsGet (harvestPositions old) id = some q :=
  harvest_fold_get old [] id q hmem hnd hne

/-! ### Claim theorems -/

/-- C1: whenever the derivation yields a graph, every intermediate edge set has
both endpoints inside the node set of its own stage — after advanced filtering
plus search (`finalLinks` vs `finalNodes`), after visibility filtering
(`linksToShow` vs `nodesToShow`), and after orphan pruning (the returned
pair). -/
theorem processVaultData_no_dangling (s : Settings) (files : List VaultFile)
    (table : List (String × List String)) (nodes : List GraphNode) (links : List Link)
    (h : processVaultData s (Corpus.mk files (some table)) = some (nodes, links)) :
    noDangling (filteredNodes s files table) (finalLinksOf s files table) ∧
    noDangling (nodesToShowOf s files table) (linksToShowOf s files table) ∧
    noDangling nodes links := by
  refine ⟨reproject_noDangling _ _, reproject_noDangling _ _, ?_⟩
  rw [processVaultData_some] at h
  by_cases ho : s.hideOrphans
  · rw [if_pos ho, Option.some.injEq] at h
    have h1 := congrArg Prod.fst h
    have h2 := congrArg Prod.snd h
    simp only at h1 h2
    rw [← h1, ← h2, orphanStage_snd]
    exact reproject_noDangling _ _
  · rw [if_neg ho, Option.some.injEq] at h
    have h1 := congrArg Prod.fst h
    have h2 := congrArg Prod.snd h
    simp only at h1 h2
    rw [← h1, ← h2]
    exact reproject_noDangling _ _

/-- C1 witness: the no-dangling property at a concrete two-note corpus with
orphan pruning enabled. -/
theorem processVaultData_no_dangling_witness :
    processVaultData exOrphanSettings
        (Corpus.mk [exFileA, exFileB] (some [("A.md", ["B.md"])])) =
      some ([fileNode exFileA, fileNode exFileB], [Link.mk "A.md" "B.md"]) ∧
    (noDangling (filteredNodes exOrphanSettings [exFileA, exFileB] [("A.md", ["B.md"])])
        (finalLinksOf exOrphanSettings [exFileA, exFileB] [("A.md", ["B.md"])]) ∧
      noDangling (nodesToShowOf exOrphanSettings [exFileA, exFileB] [("A.md", ["B.md"])])
        (linksToShowOf exOrphanSettings [exFileA, exFileB] [("A.md", ["B.md"])]) ∧
      noDangling [fileNode exFileA, fileNode exFileB] [Link.mk "A.md" "B.md"]) :=
  ⟨by decide,
    processVaultData_no_dangling exOrphanSettings [exFileA, exFileB] [("A.md", ["B.md"])]
      [fileNode exFileA, fileNode exFileB] [Link.mk "A.md" "B.md"] (by decide)⟩

/-- C5 (amended): on an id-keyed node map without pre-existing Tag nodes (the
call-site state), the tag materialization stage (a) holds the synthesized node
of tag `t` exactly when some File node carries `t`, with two documents sharing a
tag referencing the same single entry (keys stay pairwise distinct and each
entry's value id is its key), and (b) pushes one document-to-tag link per tag
occurrence: the multiplicity of `doc → tag:t` among the produced links is its
prior multiplicity plus the number of occurrences of `t` in the document's tag
list. -/
theorem tagStage_semantics (m : List (String × GraphNode)) (links : List Link)
    (hkeys : (m.map Prod.fst).Nodup)
    (hid : ∀ p ∈ m, (Prod.snd p).id = Prod.fst p)
    (htype : ∀ p ∈ m, (Prod.snd p).type ≠ NodeType.Tag) :
    (∀ t, mkTagNode t ∈ jsValues (tagStage m links).1 ↔
      ∃ n ∈ jsValues m, n.type = NodeType.File ∧ ∃ ts, n.tags = some ts ∧ t ∈ ts) ∧
    ((tagStage m links).1.map Prod.fst).Nodup ∧
    (∀ p ∈ (tagStage m links).1, (Prod.snd p).id = Prod.fst p) ∧
    (∀ n ∈ jsValues m, n.type = NodeType.File → ∀ ts, n.tags = some ts → ∀ t,
      ((tagStage m links).2).count (tagLink n t) =
        links.count (tagLink n t) + ts.count t) := by
  have hvalsid : (jsValues m).map GraphNode.id = m.map Prod.fst := by
    unfold jsValues
    rw [List.map_map]
    exact List.map_congr_left (fun p hp => hid p hp)
  have hvalnodup : ((jsValues m).map GraphNode.id).Nodup := by
    rw [hvalsid]
    exact hkeys
  have hshape := tagFold_entry_shape (jsValues m) links
  have hkeys2 := tagFold_keys_nodup (jsValues m) links
  refine ⟨?_, ?_, ?_, ?_⟩
  · intro t
    rw [tagStage_fst]
    constructor
    · intro h
      rcases mem_foldl_tagInsert _ _ _ h with h | ⟨p, hp, hx⟩
      · exfalso
        obtain ⟨p, hp, hval⟩ := List.mem_map.mp h
        exact htype p hp (by rw [hval]; rfl)
      · have hsh := hshape p hp
        have ht : Prod.fst p = t := mkTagNode_inj _ _ (by rw [← hsh]; exact hx.symm)
        have hhas : jsHas (tagFold (jsValues m) links).1 t = true := by
          obtain ⟨k, v⟩ := p
          simp only at ht
          subst ht
          exact jsHas_of_mem _ _ v hp
        exact (jsHas_tagFold _ _ t).mp hhas
    · intro h
      have hhas := (jsHas_tagFold (jsValues m) links t).mpr h
      unfold jsHas at hhas
      obtain ⟨v, hv⟩ := Option.isSome_iff_exists.mp hhas
      have hmem := jsGet_mem _ _ _ hv
      have hsh := hshape (t, v) hmem
      have hids := allTags_ids_nodup _ hshape hkeys2
      have hval := mem_values_foldl_tagInsert _ m (t, v) hmem hids
      simp only at hsh
      rwa [hsh] at hval
  · rw [tagStage_fst]
    exact foldl_tagInsert_keys_nodup _ m hkeys
  · rw [tagStage_fst]
    exact foldl_tagInsert_id_key _ m hid
  · intro n hn hf ts hts t
    rw [tagStage_snd]
    unfold tagFold
    rw [tagFold_fold_count, sum_docTagLinks_single n t (jsValues m) hvalnodup hn,
      docTagLinks_count_self n ts t hf hts]

/-- C5 witness: the amended tag-stage characterization at a concrete one-entry
node map whose document carries tag `x` twice. -/
theorem tagStage_semantics_witness :
    (([("a.md", fileNode exFileDupTag)].map Prod.fst).Nodup) ∧
    ((∀ t, mkTagNode t ∈ jsValues (tagStage [("a.md", fileNode exFileDupTag)] []).1 ↔
        ∃ n ∈ jsValues [("a.md", fileNode exFileDupTag)],
          n.type = NodeType.File ∧ ∃ ts, n.tags = some ts ∧ t ∈ ts) ∧
      ((tagStage [("a.md", fileNode exFileDupTag)] []).1.map Prod.fst).Nodup ∧
      (∀ p ∈ (tagStage [("a.md", fileNode exFileDupTag)] []).1,
        (Prod.snd p).id = Prod.fst p) ∧
      (∀ n ∈ jsValues [("a.md", fileNode exFileDupTag)],
        n.type = NodeType.File → ∀ ts, n.tags = some ts → ∀ t,
        ((tagStage [("a.md", fileNode exFileDupTag)] []).2).count (tagLink n t) =
          ([] : List Link).count (tagLink n t) + ts.count t)) :=
  ⟨by decide,
    tagStage_semantics [("a.md", fileNode exFileDupTag)] [] (by decide) (by decide)
      (by decide)⟩

/-- C6: for every binding produced by the position-continuity step, (a) a node
whose id carried a recorded position in the previous node list (3 coordinates
defined, truthy id, ids pairwise distinct) finds it in the harvest, (b) a node
whose id is in the harvest receives exactly that prior position, (c) a node
without a cached position whose first positioned neighbor in the new edge set's
adjacency has position `q` is seeded within jitter at most 1 per axis of `q`,
and (d) a node with neither cached position nor positioned neighbor stays
unpositioned. -/
theorem positionContinuity_spec (old : List (String × Option Pos))
    (newLinks : List Link) (rand : Nat → ℚ) (newNodes : List String) (id : String)
    (p? : Option Pos) (hrand : ∀ n, 0 ≤ rand n ∧ rand n < 1)
    (hmem : (id, p?) ∈ positionContinuity old newNodes newLinks rand) :
    (∀ q, (id, some q) ∈ old → (old.map Prod.fst).Nodup → id ≠ "" →
      jsGet (harvestPositions old) id = some q) ∧
    (∀ q, jsGet (harvestPositions old) id = some q → p? = some q) ∧
    (jsGet (harvestPositions old) id = none →
      ∀ q, firstCachedNeighbor (harvestPositions old)
          ((jsGet (buildAdjacency newLinks) id).getD []) = some q →
        ∃ r, p? = some r ∧ |r.x - q.x| ≤ 1 ∧ |r.y - q.y| ≤ 1 ∧ |r.z - q.z| ≤ 1) ∧
    (jsGet (harvestPositions old) id = none →
      firstCachedNeighbor (harvestPositions old)
          ((jsGet (buildAdjacency newLinks) id).getD []) = none →
      p? = none) := by
  obtain ⟨k', hk'⟩ :=
    mem_assignPositions (harvestPositions old) (buildAdjacency newLinks) rand
      newNodes 0 id p? hmem
  refine ⟨fun q hq hnd hne => harvestPositions_get old id q hq hnd hne, ?_, ?_, ?_⟩
  · intro q hget
    rw [hk', seedNode_cached _ _ _ _ _ q hget]
  · intro hnone q hfirst
    rw [hk', seedNode_seeded _ _ _ _ _ q hnone hfirst]
    refine ⟨_, rfl, ?_, ?_, ?_⟩
    · have he : q.x + jitter rand k' - q.x = jitter rand k' := by ring
      simp only [he]
      exact jitter_abs_le rand k' (hrand k').1 (hrand k').2
    · have he : q.y + jitter rand (k' + 1) - q.y = jitter rand (k' + 1) := by ring
      simp only [he]
      exact jitter_abs_le rand (k' + 1) (hrand (k' + 1)).1 (hrand (k' + 1)).2
    · have he : q.z + jitter rand (k' + 2) - q.z = jitter rand (k' + 2) := by ring
      simp only [he]
      exact jitter_abs_le rand (k' + 2) (hrand (k' + 2)).1 (hrand (k' + 2)).2
  · intro hnone hfirst
    rw [hk', seedNode_no_neighbor _ _ _ _ _ hnone hfirst]

/-- C6 witness: carry-over of the recorded position (1,2,3) at a concrete
previous graph, new node list and draw stream. -/
theorem positionContinuity_spec_witness :
    (∀ n, 0 ≤ exRand n ∧ exRand n < 1) ∧
    ("A.md", some (Pos.mk 1 2 3)) ∈
      positionContinuity exOldNodes ["A.md", "B.md", "C.md"]
        [Link.mk "A.md" "B.md"] exRand ∧
    (∀ q, jsGet (harvestPositions exOldNodes) "A.md" = some q →
      (some (Pos.mk 1 2 3) : Option Pos) = some q) :=
  ⟨fun n => by constructor <;> norm_num [exRand],
    by decide,
    (positionContinuity_spec exOldNodes [Link.mk "A.md" "B.md"] exRand
        ["A.md", "B.md", "C.md"] "A.md" (some (Pos.mk 1 2 3))
        (fun n => by constructor <;> norm_num [exRand]) (by decide)).2.1⟩

/-- C7: with hide-orphans enabled, the derivation's returned node set consists
exactly of the visibility-stage nodes incident to at least one visibility-stage
link (so links hidden by the visibility filter never keep a node alive), and
the returned link set is the visibility-stage link set re-projected once more
onto the pruned nodes. -/
theorem orphan_pruning_spec (s : Settings) (files : List VaultFile)
    (table : List (String × List String)) (nodes : List GraphNode) (links : List Link)
    (ho : s.hideOrphans = true)
    (h : processVaultData s (Corpus.mk files (some table)) = some (nodes, links)) :
    (∀ n, n ∈ nodes ↔
      n ∈ nodesToShowOf s files table ∧
        ∃ l ∈ linksToShowOf s files table, l.source = n.id ∨ l.target = n.id) ∧
    links = reproject nodes (linksToShowOf s files table) := by
  rw [processVaultData_some, if_pos ho, Option.some.injEq] at h
  have h1 := congrArg Prod.fst h
  have h2 := congrArg Prod.snd h
  simp only at h1 h2
  constructor
  · intro n
    rw [← h1]
    simp [orphanStage, List.mem_filter, List.elem_iff, linkedNodeIds_mem]
  · rw [← h2, ← h1, orphanStage_snd]

/-- C7 witness: orphan pruning at a concrete two-note corpus. -/
theorem orphan_pruning_spec_witness :
    exOrphanSettings.hideOrphans = true ∧
    processVaultData exOrphanSettings
        (Corpus.mk [exFileA, exFileB] (some [("A.md", ["B.md"])])) =
      some ([fileNode exFileA, fileNode exFileB], [Link.mk "A.md" "B.md"]) ∧
    ((∀ n, n ∈ [fileNode exFileA, fileNode exFileB] ↔
        n ∈ nodesToShowOf exOrphanSettings [exFileA, exFileB] [("A.md", ["B.md"])] ∧
          ∃ l ∈ linksToShowOf exOrphanSettings [exFileA, exFileB] [("A.md", ["B.md"])],
            l.source = n.id ∨ l.target = n.id) ∧
      [Link.mk "A.md" "B.md"] =
        reproject [fileNode exFileA, fileNode exFileB]
          (linksToShowOf exOrphanSettings [exFileA, exFileB] [("A.md", ["B.md"])])) :=
  ⟨rfl, by decide,
    orphan_pruning_spec exOrphanSettings [exFileA, exFileB] [("A.md", ["B.md"])]
      [fileNode exFileA, fileNode exFileB] [Link.mk "A.md" "B.md"] rfl (by decide)⟩

/-- C2: on node lists with pairwise distinct ids (the stage's call-site
invariant), the advanced filtering stage keeps exactly: the union of nodes
matching some positive rule when positive rules exist, all nodes otherwise;
minus every node matching some negative rule. In particular a node matching
both a positive and a negative rule is excluded. -/
theorem advanced_filter_stage_semantics (filters : List Filter) (nodes : List GraphNode)
    (hnd : (nodes.map GraphNode.id).Nodup) :
    (∀ n, n ∈ advancedFilterStage filters nodes ↔
      n ∈ nodes ∧
        (positiveFilters filters = [] ∨
          ∃ f ∈ positiveFilters filters, matchesFilter n f = true) ∧
        (∀ f ∈ negativeFilters filters, matchesFilter n f = false)) ∧
    (∀ n, (∃ f ∈ positiveFilters filters, matchesFilter n f = true) →
      (∃ g ∈ negativeFilters filters, matchesFilter n g = true) →
      n ∉ advancedFilterStage filters nodes) := by
  have hkept : ∀ n : GraphNode,
      (n ∈ (if (positiveFilters filters).length > 0
            then positivePass (positiveFilters filters) nodes else nodes)) ↔
        n ∈ nodes ∧ (positiveFilters filters = [] ∨
          ∃ f ∈ positiveFilters filters, matchesFilter n f = true) := by
    intro n
    by_cases hp : (positiveFilters filters).length > 0
    · have hne : positiveFilters filters ≠ [] := List.ne_nil_of_length_pos hp
      rw [if_pos hp, mem_positivePass_iff _ _ hnd n]
      simp [hne]
    · have heq : positiveFilters filters = [] := List.eq_nil_of_length_eq_zero (by omega)
      rw [if_neg hp]
      simp [heq]
  have hmain : ∀ n, n ∈ advancedFilterStage filters nodes ↔
      n ∈ nodes ∧
        (positiveFilters filters = [] ∨
          ∃ f ∈ positiveFilters filters, matchesFilter n f = true) ∧
        (∀ f ∈ negativeFilters filters, matchesFilter n f = false) := by
    intro n
    simp only [advancedFilterStage]
    by_cases hn : (negativeFilters filters).length > 0
    · rw [if_pos hn, List.mem_filter, hkept n]
      simp only [Bool.not_eq_true', List.any_eq_false, and_assoc]
      constructor
      · rintro ⟨h1, h2, h3⟩
        exact ⟨h1, h2, fun f hf => Bool.eq_false_iff.mpr (fun hc => (h3 f hf) hc)⟩
      · rintro ⟨h1, h2, h3⟩
        exact ⟨h1, h2, fun f hf hc => absurd hc (by rw [h3 f hf]; decide)⟩
    · have heq : negativeFilters filters = [] := List.eq_nil_of_length_eq_zero (by omega)
      rw [if_neg hn, hkept n]
      simp [heq]
  refine ⟨hmain, ?_⟩
  intro n hpos hneg hmem
  obtain ⟨g, hg, hgm⟩ := hneg
  have hfalse := ((hmain n).mp hmem).2.2 g hg
  rw [hfalse] at hgm
  cases hgm

/-- C2 witness: a node matching both the positive path rule and the negative
tag rule is excluded on a concrete one-node list. -/
theorem advanced_filter_stage_semantics_witness :
    (([fileNode exFileDupTag] : List GraphNode).map GraphNode.id).Nodup ∧
    ((∀ n, n ∈ advancedFilterStage exWitnessFilters [fileNode exFileDupTag] ↔
        n ∈ [fileNode exFileDupTag] ∧
          (positiveFilters exWitnessFilters = [] ∨
            ∃ f ∈ positiveFilters exWitnessFilters, matchesFilter n f = true) ∧
          (∀ f ∈ negativeFilters exWitnessFilters, matchesFilter n f = false)) ∧
      (∀ n, (∃ f ∈ positiveFilters exWitnessFilters, matchesFilter n f = true) →
        (∃ g ∈ negativeFilters exWitnessFilters, matchesFilter n g = true) →
        n ∉ advancedFilterStage exWitnessFilters [fileNode exFileDupTag])) :=
  ⟨by decide,
    advanced_filter_stage_semantics exWitnessFilters [fileNode exFileDupTag] (by decide)⟩

/-- C10: every Tag-type node present in a derivation result was synthesized
without a tags attribute, so no tag rule ever matches it — not even the rule
naming that very tag. -/
theorem tag_node_never_matches_tag_rule (s : Settings) (files : List VaultFile)
    (table : List (String × List String)) (nodes : List GraphNode) (links : List Link)
    (n : GraphNode) (f : Filter)
    (h : processVaultData s (Corpus.mk files (some table)) = some (nodes, links))
    (hn : n ∈ nodes) (ht : n.type = NodeType.Tag) (hf : f.type = FilterType.tag) :
    matchesFilter n f = false := by
  have hshow : n ∈ nodesToShowOf s files table := by
    rw [processVaultData_some] at h
    by_cases ho : s.hideOrphans
    · rw [if_pos ho, Option.some.injEq] at h
      have h1 := congrArg Prod.fst h
      simp only at h1
      rw [← h1] at hn
      exact List.mem_of_mem_filter hn
    · rw [if_neg ho, Option.some.injEq] at h
      have h1 := congrArg Prod.fst h
      simp only at h1
      rwa [← h1] at hn
  have hfil : n ∈ filteredNodes s files table := List.mem_of_mem_filter hshow
  have hadv : n ∈ advancedFilterStage s.filters (jsValues (derivedBase s files table).1) := by
    unfold filteredNodes at hfil
    by_cases hq : s.searchQuery = ""
    · rwa [if_pos hq] at hfil
    · rw [if_neg hq] at hfil
      exact List.mem_of_mem_filter hfil
  have hbase := advancedFilterStage_subset s.filters _ n hadv
  rcases derivedBase_values s files table n hbase with ⟨g, hg, rfl⟩ | ⟨t, rfl⟩
  · exact absurd ht (fileNode_type_ne_tag g)
  · exact matchesFilter_tag_of_none _ f rfl hf

/-- C10 witness: the synthesized node for tag `x` is present in a concrete
derivation and is not matched by the tag rule naming `x`. -/
theorem tag_node_never_matches_tag_rule_witness :
    processVaultData exTagSettings exTagCorpus =
      some ([fileNode exFileDupTag, mkTagNode "x"],
        [Link.mk "a.md" "tag:x", Link.mk "a.md" "tag:x"]) ∧
    mkTagNode "x" ∈ [fileNode exFileDupTag, mkTagNode "x"] ∧
    (mkTagNode "x").type = NodeType.Tag ∧
    matchesFilter (mkTagNode "x") (Filter.mk FilterType.tag "x" false) = false :=
  ⟨by decide, by decide, rfl,
    tag_node_never_matches_tag_rule exTagSettings [exFileDupTag] []
      [fileNode exFileDupTag, mkTagNode "x"]
      [Link.mk "a.md" "tag:x", Link.mk "a.md" "tag:x"]
      (mkTagNode "x") (Filter.mk FilterType.tag "x" false)
      (by decide) (by decide) rfl rfl⟩

/-- C3 (code defect): with the neighbor toggle enabled and `B.md` linked from
the matching note `A.md`, the current `processVaultData` drops `B.md` — the
destructured `showNeighboringNodes` setting is never consulted — while the
earlier derivation's search stage (the one the README and the setting still
describe) retains both notes. -/
theorem search_neighbor_expansion_regression :
    processVaultData exSearchSettings exSearchCorpus = some ([fileNode exFileA], []) ∧
    searchStageOld "hello" true ["A.md", "B.md"] [Link.mk "A.md" "B.md"]
      [fileNode exFileA, fileNode exFileB] = [fileNode exFileA, fileNode exFileB] :=
  ⟨by decide, by decide⟩

/-- C4 (counterexample): a `path` rule whose value is a substring of a Tag
node's synthesized id does match that Tag node — `matchesFilter` has no
Tag-type exemption. -/
theorem path_rule_matches_tag_node :
    matchesFilter (mkTagNode "x") (Filter.mk FilterType.path "tag:" false) = true := by
  decide

/-- C4 (amended): a `path` rule applies the same substring test to every node,
Tag-type nodes included: it matches exactly when the trimmed lowercased rule
value is non-empty and occurs in the lowercased node id. -/
theorem matchesFilter_path_semantics (node : GraphNode) (f : Filter)
    (h : f.type = FilterType.path) :
    matchesFilter node f =
      (!(jsToLower (jsTrim f.value) == "") &&
        includes (jsToLower node.id) (jsToLower (jsTrim f.value))) := by
  simp only [matchesFilter, h]
  by_cases hv : jsToLower (jsTrim f.value) = "" <;> simp [hv]

/-- C4 witness: the amended characterization applied to a Tag node and a
concrete rule. -/
theorem matchesFilter_path_semantics_witness :
    matchesFilter (mkTagNode "x") (Filter.mk FilterType.path "TAG" false) =
      (!(jsToLower (jsTrim "TAG") == "") &&
        includes (jsToLower (mkTagNode "x").id) (jsToLower (jsTrim "TAG"))) :=
  matchesFilter_path_semantics (mkTagNode "x") (Filter.mk FilterType.path "TAG" false) rfl

/-- C5 (counterexample): a document with the same tag occurring twice gets two
document-to-tag edges — tag edges are not deduplicated per document/tag pair. -/
theorem tag_edges_not_deduplicated :
    (processVaultData exTagSettings exTagCorpus).map
        (fun r => r.2.count (Link.mk "a.md" "tag:x")) = some 2 := by
  decide

/-- C8: a filter rule whose value trims to the empty string is inert: the
predicate evaluator returns false on it for every node, and deleting it from
the configured rule list (wherever it sits) does not change the advanced
filtering stage's output. -/
theorem empty_filter_inert (node : GraphNode) (f : Filter) (fs1 fs2 : List Filter)
    (nodes : List GraphNode) (h : jsTrim f.value = "") :
    matchesFilter node f = false ∧
    advancedFilterStage (fs1 ++ f :: fs2) nodes = advancedFilterStage (fs1 ++ fs2) nodes := by
  constructor
  · simp [matchesFilter, h, jsToLower_empty]
  · have hp : positiveFilters (fs1 ++ f :: fs2) = positiveFilters (fs1 ++ fs2) := by
      simp [positiveFilters, List.filter_append, List.filter_cons, h]
    have hn : negativeFilters (fs1 ++ f :: fs2) = negativeFilters (fs1 ++ fs2) := by
      simp [negativeFilters, List.filter_append, List.filter_cons, h]
    simp only [advancedFilterStage, hp, hn]

/-- C8 witness: a whitespace-only tag rule is inert on a concrete node. -/
theorem empty_filter_inert_witness :
    jsTrim "  " = "" ∧
    (matchesFilter (fileNode exFileA) (Filter.mk FilterType.tag "  " false) = false ∧
      advancedFilterStage ([] ++ Filter.mk FilterType.tag "  " false :: [])
          [fileNode exFileA] =
        advancedFilterStage ([] ++ []) [fileNode exFileA]) :=
  ⟨by decide,
    empty_filter_inert (fileNode exFileA) (Filter.mk FilterType.tag "  " false) [] []
      [fileNode exFileA] (by decide)⟩

/-- C9 (counterexample): after a `null` derivation the view does not keep the
previously displayed graph — it displays an empty graph plus the no-results
message, so a previously non-empty display is not left untouched. -/
theorem null_derivation_clears_display :
    updateDisplayed none = ⟨[], [], some "No search results found."⟩ ∧
    (updateDisplayed none).nodes ≠ [fileNode exFileA] :=
  ⟨rfl, by decide⟩

/-- C9 (amended): when the resolved-link table is absent the derivation yields
`none` (no graph, no exception), and the update cycle then displays an empty
graph with the no-results message. -/
theorem processVaultData_none_of_missing_links (s : Settings) (c : Corpus)
    (h : c.resolvedLinks = none) :
    processVaultData s c = none ∧
    updateDisplayed (processVaultData s c) =
      ⟨[], [], some "No search results found."⟩ := by
  have hn : processVaultData s c = none := by
    unfold processVaultData
    rw [h]
  exact ⟨hn, by rw [hn]; rfl⟩

/-- C9 witness: the amended claim at a concrete corpus lacking the table. -/
theorem processVaultData_none_of_missing_links_witness :
    processVaultData exTagSettings (Corpus.mk [exFileDupTag] none) = none ∧
    updateDisplayed (processVaultData exTagSettings (Corpus.mk [exFileDupTag] none)) =
      ⟨[], [], some "No search results found."⟩ :=
  processVaultData_none_of_missing_links exTagSettings (Corpus.mk [exFileDupTag] none) rfl

end Graph3D
